import Mathlib

/-!
Verification of the planning core of `sm0l_tools_mcp`
(`toolchains.py`, `install_hints.py`, `mcp_server.py`).

The Python source is shallowly embedded: dataclasses become structures,
Python `set`s become `Finset String` (or lists where only membership is
used), dicts with meaningful insertion order become association lists,
and the stable in-place `list.sort(key=...)` becomes
`List.insertionSort` with the key order as a decidable relation
(both are stable sorts for the same total preorder, hence produce the
same list).  In-place mutation of an argument list is modelled by
returning the post-call contents of the caller's list explicitly.
-/

namespace Sm0l

/-! ## Goal classifier (`toolchains.classify_goal`) -/

/-- `[a-z0-9_]` membership for a single (already lowercased) character,
the character class of the tokenizing regex in `_goal_keywords`. -/
def isWordChar (c : Char) : Bool :=
  (('a' ≤ c && c ≤ 'z') || ('0' ≤ c && c ≤ '9') || c == '_')

/-- Accumulator-based scanner extracting the maximal runs of word
characters, i.e. the matches of `re.findall(r"[a-z0-9_]+", goal)`.
`acc` holds the current run, reversed. -/
def tokensAux : List Char → List Char → List (List Char)
  | [], acc => if acc.isEmpty then [] else [acc.reverse]
  | c :: rest, acc =>
    if isWordChar c then tokensAux rest (c :: acc)
    else if acc.isEmpty then tokensAux rest []
    else acc.reverse :: tokensAux rest []

/-- `_goal_keywords`: lowercase the goal and collect its `[a-z0-9_]+`
tokens.  Python returns a `set`; only membership is ever used, so the
token list (with possible duplicates) is an adequate model. -/
def goalKeywords (goal : String) : List (List Char) :=
  tokensAux (goal.toList.map Char.toLower) []

/-- Does any of the keywords occur among the tokens?  This is
`bool(toks & {...})` from `classify_goal`. -/
def hasKw (toks : List (List Char)) (kws : List String) : Bool :=
  kws.any (fun k => toks.contains k.toList)

/-- The capability-flag record returned by `classify_goal`
(a `dict` with exactly these eleven keys in the source). -/
structure GoalIntent where
  web : Bool
  browser : Bool
  pdf : Bool
  office : Bool
  nlp : Bool
  embeddings : Bool
  ml : Bool
  viz : Bool
  system : Bool
  schedule : Bool
  misc : Bool
deriving DecidableEq, Repr

def webKws : List String :=
  ["web","http","scrape","crawler","crawl","api","fetch","request","requests","html","site","url"]
def browserKws : List String :=
  ["selenium","playwright","browser","headless","login","render","js","javascript"]
def pdfKws : List String :=
  ["pdf","paper","papers","document","docs","extract"]
def officeKws : List String :=
  ["excel","xlsx","spreadsheet","workbook","sheet","openpyxl"]
def nlpKws : List String :=
  ["nlp","summarize","summary","sentiment","entities","entity","ner","language","text"]
def embeddingsKws : List String :=
  ["embedding","embeddings","vector","semantic","similarity","search"]
def mlKws : List String :=
  ["model","train","classification","regression","sklearn","torch","pytorch"]
def vizKws : List String :=
  ["plot","chart","visualize","viz","graph","dashboard","map","plotly","matplotlib"]
def systemKws : List String :=
  ["monitor","cpu","ram","disk","process","watch","watchdog","filesystem"]
def scheduleKws : List String :=
  ["schedule","cron","timer","apscheduler","jobs","workflow","prefect","dagster","airflow"]

/-- `classify_goal`: ten keyword-intersection flags plus the derived
`misc` flag (`misc` true iff none of the ten matched). -/
def classify_goal (goal : String) : GoalIntent :=
  let toks := goalKeywords goal
  let web := hasKw toks webKws
  let browser := hasKw toks browserKws
  let pdf := hasKw toks pdfKws
  let office := hasKw toks officeKws
  let nlp := hasKw toks nlpKws
  let embeddings := hasKw toks embeddingsKws
  let ml := hasKw toks mlKws
  let viz := hasKw toks vizKws
  let system := hasKw toks systemKws
  let schedule := hasKw toks scheduleKws
  let anyFlag := web || browser || pdf || office || nlp || embeddings || ml || viz || system || schedule
  { web := web, browser := browser, pdf := pdf, office := office,
    nlp := nlp, embeddings := embeddings, ml := ml, viz := viz,
    system := system, schedule := schedule, misc := !anyFlag }

/-! ## Phase planner (`toolchains.phases_for_goal`) -/

/-- `phases_for_goal`: the fixed rule list, evaluated top-down; each
`phases.append` becomes a list concatenation. -/
def phases_for_goal (w : GoalIntent) : List String :=
  (if w.web || w.browser then ["ingest_web"] else []) ++
  (if w.pdf || w.office then ["ingest_docs"] else []) ++
  (if w.system then ["observe"] else []) ++
  ["transform"] ++
  (if w.nlp || w.embeddings || w.ml then ["analyze"] else []) ++
  (if w.viz then ["visualize"] else []) ++
  ["report"]

/-! ## Step ranker (`toolchains.pick_best`) -/

/-- The catalog descriptor `ChainStep` (a frozen dataclass). -/
structure ChainStep where
  tool_name : String
  id : String
  domain : String
  subdomain : String
  tags : List String
  deps_pypi : List String
  description : String
deriving DecidableEq, Repr

/-- `len(required_tags & set(s.tags))`. -/
def tagOverlap (req : Finset String) (s : ChainStep) : Nat :=
  (req ∩ s.tags.toFinset).card

/-- `bool(required_tags & set(s.tags))`, the narrowing predicate. -/
def tagFilter (req : Finset String) (s : ChainStep) : Bool :=
  decide ((req ∩ s.tags.toFinset) ≠ ∅)

/-- The Python sort key `(-tag overlap, len(deps), len(description))`,
as a total preorder (higher overlap first, then fewer deps, then
shorter description). -/
def prefOrder (req : Finset String) (a b : ChainStep) : Prop :=
  tagOverlap req b < tagOverlap req a ∨
    (tagOverlap req a = tagOverlap req b ∧
      (a.deps_pypi.length < b.deps_pypi.length ∨
        (a.deps_pypi.length = b.deps_pypi.length ∧
          a.description.length ≤ b.description.length)))

/-- The fallback sort key `(len(deps), len(description))`. -/
def depsDescOrder (a b : ChainStep) : Prop :=
  a.deps_pypi.length < b.deps_pypi.length ∨
    (a.deps_pypi.length = b.deps_pypi.length ∧
      a.description.length ≤ b.description.length)

instance (req : Finset String) : DecidableRel (prefOrder req) := fun a b => by
  unfold prefOrder; exact inferInstance

instance : DecidableRel depsDescOrder := fun a b => by
  unfold depsDescOrder; exact inferInstance

instance (req : Finset String) : IsTotal ChainStep (prefOrder req) :=
  ⟨by intro a b; unfold prefOrder; omega⟩

instance (req : Finset String) : IsTrans ChainStep (prefOrder req) :=
  ⟨by intro a b c; unfold prefOrder; omega⟩

instance : IsTotal ChainStep depsDescOrder :=
  ⟨by intro a b; unfold depsDescOrder; omega⟩

instance : IsTrans ChainStep depsDescOrder :=
  ⟨by intro a b c; unfold depsDescOrder; omega⟩

/-- `s.domain == d and (sd == "*" or s.subdomain == sd)`. -/
def stepMatchesPref (p : String × String) (s : ChainStep) : Bool :=
  s.domain == p.1 && (p.2 == "*" || s.subdomain == p.2)

/-- The narrowing stage of `pick_best`: if `required_tags` is non-empty
and some record's tags intersect it, keep only those records, otherwise
keep the pool unchanged. -/
def narrowPool (steps : List ChainStep) (required_tags : Finset String) :
    List ChainStep :=
  if required_tags = ∅ then steps
  else
    let cand := steps.filter (tagFilter required_tags)
    if cand = [] then steps else cand

/-- The preference-pair loop of `pick_best`: scan the pairs in order and
on the first pair matching a non-empty subset of the pool, return the
head of that subset stably sorted by `prefOrder` (Python's
`cand.sort(key=...)` followed by `cand[0]`). -/
def findPref (pool : List ChainStep) (req : Finset String) :
    List (String × String) → Option ChainStep
  | [] => none
  | p :: ps =>
    match pool.filter (stepMatchesPref p) with
    | [] => findPref pool req ps
    | c :: cs => (List.insertionSort (prefOrder req) (c :: cs)).head?

/-- Ranking after the narrowing stage: the preference loop, then the
fallback stable sort by `(len(deps), len(description))` and its first
element (`None` exactly when the pool is empty). -/
def rankPool (pool : List ChainStep) (prefs : List (String × String))
    (req : Finset String) : Option ChainStep :=
  match findPref pool req prefs with
  | some c => some c
  | none => (List.insertionSort depsDescOrder pool).head?

/-- `pick_best`.  The first component is the returned step.  The second
component models the contents of the caller's `steps` list after the
call: Python's fallback `steps.sort(key=...)` mutates the argument list
in place exactly when the narrowing stage did not rebind `steps` to a
fresh list (i.e. `required_tags` was empty or the narrowing filter
matched nothing) and no preference pair matched. -/
def pick_best (steps : List ChainStep) (preferred_domains : List (String × String))
    (required_tags : Finset String) : Option ChainStep × List ChainStep :=
  let pool := narrowPool steps required_tags
  let post :=
    if (required_tags = ∅ ∨ steps.filter (tagFilter required_tags) = []) ∧
        findPref pool required_tags preferred_domains = none then
      List.insertionSort depsDescOrder steps
    else steps
  (rankPool pool preferred_domains required_tags, post)

/-! ## Recipe candidate builder (`toolchains.build_recipe_candidates`) -/

/-- Lexicographic comparison of character lists by code point, the
order Python's `sorted` uses on strings. -/
def charListLe : List Char → List Char → Bool
  | [], _ => true
  | _ :: _, [] => false
  | a :: as, b :: bs =>
    if a < b then true else if b < a then false else charListLe as bs

/-- Python's string order, as a decidable propositional relation. -/
def strLe (a b : String) : Prop := charListLe a.toList b.toList = true

instance : DecidableRel strLe := fun a b => by
  unfold strLe; exact inferInstance

theorem charListLe_total : ∀ a b : List Char, charListLe a b = true ∨ charListLe b a = true
  | [], _ => Or.inl rfl
  | _ :: _, [] => Or.inr rfl
  | a :: as, b :: bs => by
    by_cases hab : a < b
    · exact Or.inl (by simp [charListLe, hab])
    · by_cases hba : b < a
      · refine Or.inr (by simp [charListLe, hba])
      · have ih := charListLe_total as bs
        rcases ih with h | h
        · exact Or.inl (by simp [charListLe, hab, hba, h])
        · exact Or.inr (by simp [charListLe, hab, hba, h])

theorem charListLe_trans :
    ∀ a b c : List Char, charListLe a b = true → charListLe b c = true →
      charListLe a c = true
  | [], _, _ => by intro _ _; rfl
  | a :: as, [], c => by intro h _; exact absurd h (by simp [charListLe])
  | a :: as, b :: bs, [] => by
    intro _ h
    exact absurd h (by simp [charListLe])
  | a :: as, b :: bs, c :: cs => by
    intro h1 h2
    by_cases hab : a < b
    · by_cases hbc : b < c
      · simp [charListLe, lt_trans hab hbc]
      · have hcb : ¬ c < b := by
          intro hcb
          simp [charListLe, hbc, hcb] at h2
        have hbc2 : b = c := ((lt_trichotomy b c).resolve_left hbc).resolve_right hcb
        subst hbc2
        simp [charListLe, hab]
    · have hba : ¬ b < a := by
        intro hba
        simp [charListLe, hab, hba] at h1
      have hab2 : a = b := ((lt_trichotomy a b).resolve_left hab).resolve_right hba
      subst hab2
      simp only [charListLe, if_neg (lt_irrefl a)] at h1
      by_cases hac : a < c
      · simp [charListLe, hac]
      · have hca : ¬ c < a := by
          intro hca
          simp [charListLe, hac, hca] at h2
        have hac2 : a = c := ((lt_trichotomy a c).resolve_left hac).resolve_right hca
        subst hac2
        simp only [charListLe, if_neg (lt_irrefl a)] at h2 ⊢
        exact charListLe_trans as bs cs h1 h2

instance : IsTotal String strLe :=
  ⟨fun a b => charListLe_total a.toList b.toList⟩

instance : IsTrans String strLe :=
  ⟨fun a b c => charListLe_trans a.toList b.toList c.toList⟩

/-- `sorted(set(l))` for a list of strings: deduplicate, then sort
lexicographically (stably — irrelevant after dedup). -/
def sortedDedup (l : List String) : List String :=
  List.insertionSort strLe l.dedup

/-- The static per-phase preference-pair table `phase_prefs`, including
the `.get(ph, [("MISC","MISC")])` default. -/
def phase_prefs : String → List (String × String)
  | "ingest_web" => [("WEB","SCRAPE"), ("WEB","BROWSER"), ("WEB","HTTP"), ("WEB","API"), ("MISC","MISC")]
  | "ingest_docs" => [("DOC","PDF"), ("DOC","OFFICE"), ("DOC","MISC"), ("MISC","MISC")]
  | "observe" => [("SYS","MON"), ("MISC","MISC")]
  | "transform" => [("DATA","DF"), ("MISC","MISC")]
  | "analyze" => [("NLP","EMBED"), ("NLP","SPACY"), ("NLP","BASIC"), ("ML","TORCH"), ("ML","SKLEARN"), ("MISC","MISC")]
  | "visualize" => [("VIZ","PLOTS"), ("VIZ","MAPS"), ("VIZ","GPU"), ("VIZ","TERM"), ("MISC","MISC")]
  | "report" => [("DOC","OFFICE"), ("DOC","PDF"), ("VIZ","TERM"), ("MISC","MISC")]
  | _ => [("MISC","MISC")]

/-- The static per-phase tag vocabulary `phase_tags`, including the
`.get(ph, set())` default. -/
def phase_tags : String → Finset String
  | "ingest_web" => {"requests","httpx","urllib3","bs4","mechanicalsoup","selenium","playwright","pyppeteer","scrape","browser","api","http"}
  | "ingest_docs" => {"pdf","pypdf2","pymupdf","fitz","pdfplumber","openpyxl","xlsx","excel"}
  | "observe" => {"psutil","watchdog","system","filesystem"}
  | "transform" => {"pandas","polars","numpy","arrow","dataframe"}
  | "analyze" => {"nlp","spacy","textblob","sentence_transformers","embedding","torch","sklearn"}
  | "visualize" => {"plotly","matplotlib","seaborn","datashader","holoviews","pydeck","pyecharts","plotext","chart","plot","map"}
  | "report" => {"openpyxl","pdf","rich","pandas","polars"}
  | _ => ∅

/-- The pool-eligibility predicate of the builder:
`(set(s.tags) & tags) or (s.domain in {p[0] for p in pref})`. -/
def eligibleStep (pref : List (String × String)) (tags : Finset String)
    (s : ChainStep) : Bool :=
  decide ((s.tags.toFinset ∩ tags) ≠ ∅) || (pref.map Prod.fst).contains s.domain

/-- The bounded ranking loop of the builder (`for _ in range(12)`):
repeatedly pick the best not-yet-used step, stopping early on a `None`
pick; the fuel argument counts the remaining rounds. -/
def rankGo (pool0 : List ChainStep) (pref : List (String × String))
    (tags : Finset String) : Nat → List String → List ChainStep
  | 0, _ => []
  | Nat.succ n, used =>
    match (pick_best (pool0.filter (fun s => !used.contains s.tool_name)) pref tags).1 with
    | none => []
    | some p => p :: rankGo pool0 pref tags n (p.tool_name :: used)

/-- Per-phase ranked option list: eligible pool, twelve ranking rounds,
source `plausible[:1]` fallback when no option was produced, width cap 6. -/
def phaseOptions (all_steps : List ChainStep) (ph : String) : List ChainStep :=
  let pref := phase_prefs ph
  let tags := phase_tags ph
  let pool0 := all_steps.filter (eligibleStep pref tags)
  let ranked := rankGo pool0 pref tags 12 []
  let ranked2 := if ranked = [] then pool0.take 1 else ranked
  ranked2.take 6

/-- One phase of the chain cross product: extend every partial chain by
each of the phase's top-3 options, then truncate to the first
`max_candidates` chains. -/
def extendChains (max_candidates : Nat) (candidates : List (List ChainStep))
    (opts : List ChainStep) : List (List ChainStep) :=
  (candidates.flatMap (fun c => (opts.take 3).map (fun o => c ++ [o]))).take
    max_candidates

/-- The rendered output record of `build_recipe_candidates`. -/
structure RecipeCandidate where
  candidate : Nat
  phases : List String
  deps_union : List String
  steps : List ChainStep
deriving DecidableEq, Repr

/-- `enumerate(candidates[:max_candidates], start=1)` rendering loop. -/
def renderChains (phases : List String) : Nat → List (List ChainStep) → List RecipeCandidate
  | _, [] => []
  | idx, chain :: rest =>
    { candidate := idx, phases := phases,
      deps_union := sortedDedup (chain.flatMap (fun s => s.deps_pypi)),
      steps := chain } :: renderChains phases (idx + 1) rest

/-- `build_recipe_candidates`. -/
def build_recipe_candidates (all_steps : List ChainStep) (goal : String)
    (max_candidates : Nat) : List RecipeCandidate :=
  let wants := classify_goal goal
  let phases := phases_for_goal wants
  let per_phase_options := phases.map (phaseOptions all_steps)
  let candidates := per_phase_options.foldl (extendChains max_candidates) [[]]
  renderChains phases 1 (candidates.take max_candidates)

/-! ## Dependency extras resolver (`install_hints.py`) -/

/-- The static module → PyPI package table `MOD_TO_PKG`, as an
insertion-ordered association list. -/
def MOD_TO_PKG : List (String × String) :=
  [("bs4", "beautifulsoup4"),
   ("sklearn", "scikit-learn"),
   ("yaml", "PyYAML"),
   ("PIL", "Pillow"),
   ("fitz", "PyMuPDF"),
   ("sentence_transformers", "sentence-transformers"),
   ("plotly_resampler", "plotly-resampler"),
   ("youtubesearchpython", "youtube-search-python")]

/-- `MOD_TO_PKG.get(missing_module, missing_module)`. -/
def modToPkg (m : String) : String := (MOD_TO_PKG.lookup m).getD m

/-- One pass over the candidate bundles (`for extra, e_pkgs in
candidates.items()`): keep the first bundle whose cover of `remaining`
is strictly larger than every earlier cover, starting from
`best = None`, `best_cover = set()`. -/
def bestExtra (candidates : List (String × Finset String)) (remaining : Finset String) :
    Option String × Finset String :=
  candidates.foldl
    (fun acc kv =>
      if acc.2.card < (remaining ∩ kv.2).card then (some kv.1, remaining ∩ kv.2)
      else acc)
    (none, ∅)

/-- The `while remaining:` greedy loop of `choose_extras_for_packages`,
with explicit fuel (each productive iteration strictly shrinks
`remaining`, so `pkgs.card + 1` rounds always suffice). -/
def chooseGo (candidates : List (String × Finset String)) :
    Nat → Finset String → List String → List String
  | 0, _, chosen => chosen
  | Nat.succ n, remaining, chosen =>
    if remaining = ∅ then chosen
    else
      match bestExtra candidates remaining with
      | (some b, cover) => chooseGo candidates n (remaining \ cover) (chosen ++ [b])
      | (none, _) => chosen

/-- `choose_extras_for_packages`: greedy set cover over the bundle map
with `"all"` removed, result deduplicated and sorted. -/
def choose_extras_for_packages (extras_map : List (String × Finset String))
    (pkgs : Finset String) : List String :=
  let candidates := extras_map.filter (fun kv => !(kv.1 == "all"))
  sortedDedup (chooseGo candidates (pkgs.card + 1) pkgs [])

/-- Reference greedy step stated in the specification's words: compute
the maximal number of still-uncovered packages any bundle covers; stop
when it is zero, otherwise select the first bundle (in map iteration
order) attaining that maximum. -/
def specBestExtra (candidates : List (String × Finset String)) (remaining : Finset String) :
    Option (String × Finset String) :=
  let maxCov := (candidates.map (fun kv => (remaining ∩ kv.2).card)).foldl max 0
  if maxCov = 0 then none
  else
    (candidates.find? (fun kv => (remaining ∩ kv.2).card == maxCov)).map
      (fun kv => (kv.1, remaining ∩ kv.2))

/-- Reference greedy loop stated in the specification's words. -/
def specChooseGo (candidates : List (String × Finset String)) :
    Nat → Finset String → List String → List String
  | 0, _, chosen => chosen
  | Nat.succ n, remaining, chosen =>
    if remaining = ∅ then chosen
    else
      match specBestExtra candidates remaining with
      | none => chosen
      | some (b, cover) => specChooseGo candidates n (remaining \ cover) (chosen ++ [b])

/-- The specification's greedy set-cover reference definition. -/
def specChooseExtras (extras_map : List (String × Finset String))
    (pkgs : Finset String) : List String :=
  let candidates := extras_map.filter (fun kv => !(kv.1 == "all"))
  sortedDedup (specChooseGo candidates (pkgs.card + 1) pkgs [])

/-- The literal prefix of the regex in `missing_module_from_stderr`
(quote handled separately). -/
def mmnPhrase : List Char := "No module named ".toList

def isQuote (c : Char) : Bool := c == '\x27' || c == '\x22'

/-- The character class `[A-Za-z0-9_\.]`. -/
def identChar (c : Char) : Bool :=
  ('A' ≤ c && c ≤ 'Z') || ('a' ≤ c && c ≤ 'z') || ('0' ≤ c && c ≤ '9') ||
    c == '_' || c == '.'

/-- Match a quote, a non-empty `[A-Za-z0-9_\.]+` group, and a closing
quote at the head of the input, returning the captured group.  The
quote and identifier character classes are disjoint, so the regex
engine's greedy match with backtracking is equivalent to taking the
maximal identifier run and requiring a quote right after it. -/
def matchQuoted : List Char → Option (List Char)
  | [] => none
  | q :: rest =>
    if isQuote q then
      match rest.takeWhile identChar, rest.drop (rest.takeWhile identChar).length with
      | [], _ => none
      | _ :: _, [] => none
      | r :: un, q2 :: _ => if isQuote q2 then some (r :: un) else none
    else none

/-- `re.search` for the full pattern: at each position, try the literal
phrase followed by a quoted identifier; on failure resume the scan one
character further (the pattern starts with a literal, so match starts
coincide with phrase occurrences). -/
def searchNoModule : List Char → Option (List Char)
  | [] => none
  | c :: rest =>
    if mmnPhrase.isPrefixOf (c :: rest) then
      match matchQuoted ((c :: rest).drop mmnPhrase.length) with
      | some run => some run
      | none => searchNoModule rest
    else searchNoModule rest

/-- `missing_module_from_stderr`: first match of the pattern, then the
first dot-separated segment of the captured identifier
(`m.group(1).split(".")[0]`). -/
def missing_module_from_stderr (stderr : String) : Option String :=
  match searchNoModule stderr.toList with
  | none => none
  | some run => some (String.mk (run.takeWhile (fun c => !(c == '.'))))

/-- The record assembled by `install_hints_for_tool`. -/
structure InstallHints where
  tool : String
  missing_module : Option String
  deps_pypi : List String
  suggested_extras : List String
  pip_commands : List String
  notes : List String
deriving DecidableEq, Repr

/-- Python truthiness of `Optional[str]` (`None` and `""` are falsy). -/
def optTruthy : Option String → Bool
  | none => false
  | some m => !(m == "")

def noteExtras : String := "Preferred: install via extras for reproducible capability bundles."
def noteDirect : String := "Fallback: install the missing package directly."
def noteBase : String := "Install the base package first, then add extras as needed."
def noteOcr : String := "OCR also needs the system \x27tesseract\x27 binary installed and on PATH."
def noteAudio : String := "Audio tools often need ffmpeg installed and on PATH."
def notePlaywright : String := "Playwright needs browser binaries installed via \x27playwright install\x27."

/-- `install_hints_for_tool`: the three-way priority for the base
install command plus the advisory notes keyed on specific
dependencies/missing modules. -/
def install_hints_for_tool (tool_name : String) (missing_module : Option String)
    (deps_pypi : List String) (extras_map : List (String × Finset String)) :
    InstallHints :=
  let deps_set := deps_pypi.toFinset
  let suggested_extras :=
    if deps_set ≠ ∅ then choose_extras_for_packages extras_map deps_set else []
  let base :=
    if suggested_extras ≠ [] then
      (["pip install -e .[" ++ String.intercalate "," suggested_extras ++ "]"],
       [noteExtras])
    else if optTruthy missing_module then
      (["pip install " ++ modToPkg (missing_module.getD "")], [noteDirect])
    else
      (["pip install -e ."], [noteBase])
  let ocrNotes :=
    if "pytesseract" ∈ deps_set ∨ missing_module = some "pytesseract" then [noteOcr]
    else []
  let audioNotes :=
    if "pydub" ∈ deps_set ∨ missing_module = some "pydub" then [noteAudio]
    else []
  let pwHit := "playwright" ∈ deps_set ∨ missing_module = some "playwright"
  let pwCmds := if pwHit then ["playwright install"] else []
  let pwNotes := if pwHit then [notePlaywright] else []
  { tool := tool_name,
    missing_module := missing_module,
    deps_pypi := deps_pypi,
    suggested_extras := suggested_extras,
    pip_commands := base.1 ++ pwCmds,
    notes := base.2 ++ ocrNotes ++ audioNotes ++ pwNotes }

/-! ## Script locator (`mcp_server._resolve_script_path`)

The filesystem under the search root is modelled as the list of file
paths relative to the root, each a raw character sequence with `/`
separators, listed in the fixed deterministic `rglob` traversal order.
Declared source paths are raw character sequences whose separators may
be `/` or `\`. -/

/-- A path as raw characters. -/
abbrev RawPath := List Char

/-- `source_path.replace("\\", "/")`. -/
def normSlash (p : RawPath) : RawPath :=
  p.map (fun c => if c = '\\' then '/' else c)

/-- Split a path on `/` (Python `str.split("/")`: the empty path yields
one empty segment). -/
def splitSegs : RawPath → List RawPath
  | [] => [[]]
  | c :: rest =>
    if c = '/' then [] :: splitSegs rest
    else
      match splitSegs rest with
      | [] => [[c]]
      | seg :: rest2 => (c :: seg) :: rest2

/-- The final name component of a path. -/
def lastSeg (p : RawPath) : RawPath := (splitSegs p).getLastD []

/-- `len(path.parts)` — the number of `/`-separated segments. -/
def depth (p : RawPath) : Nat := (splitSegs p).length

/-- The sort key `len(x.relative_to(tools_dir).parts)` of the
shallowest-first sorts, as a relation. -/
def depthLe (a b : RawPath) : Prop := depth a ≤ depth b

instance : DecidableRel depthLe := fun a b => by
  unfold depthLe; exact inferInstance

instance : IsTotal RawPath depthLe :=
  ⟨by intro a b; unfold depthLe; omega⟩

instance : IsTrans RawPath depthLe :=
  ⟨by intro a b c; unfold depthLe; omega⟩

/-- Outcome of `_resolve_script_path`: a resolved path, or one of the
two documented failures (ambiguous with up to 25 root-relative
candidates, or not found reporting the attempted path). -/
inductive ResolveResult where
  | found (p : RawPath)
  | ambiguous (cands : List RawPath)
  | notFound (attempted : RawPath)
deriving DecidableEq, Repr

/-- `_resolve_script_path`: exact match, then suffix match (unique or
shallowest), then basename match (unique, strictly-shallowest, or the
ambiguous failure), then the not-found failure. -/
def resolve_script_path (fs : List RawPath) (source_path : RawPath) : ResolveResult :=
  if source_path ∈ fs then .found source_path
  else
    let spNorm := normSlash source_path
    let basename := lastSeg spNorm
    let suffixMatches :=
      fs.filter (fun f => lastSeg f == basename && spNorm.isSuffixOf f)
    match suffixMatches with
    | [m] => .found m
    | _ :: _ :: _ =>
      .found ((List.insertionSort depthLe suffixMatches).headD [])
    | [] =>
      let baseMatches := fs.filter (fun f => lastSeg f == basename)
      match baseMatches with
      | [] => .notFound source_path
      | [m] => .found m
      | _ :: _ :: _ =>
        match List.insertionSort depthLe baseMatches with
        | m0 :: m1 :: rest2 =>
          if depth m0 < depth m1 then .found m0
          else .ambiguous ((m0 :: m1 :: rest2).take 25)
        | _ => .ambiguous []

/-- The first element of a path list attaining the minimal depth
(ties broken by list position). -/
def firstMinDepth : List RawPath → RawPath
  | [] => []
  | [x] => x
  | x :: y :: rest =>
    if depth x ≤ depth (firstMinDepth (y :: rest)) then x
    else firstMinDepth (y :: rest)

/-- The minimal depth occurring in a path list. -/
def minDepthVal : List RawPath → Nat
  | [] => 0
  | [x] => depth x
  | x :: y :: rest => min (depth x) (minDepthVal (y :: rest))

/-- The specification's staged description of the locator: stage
outcomes expressed through first-minimum selection and uniqueness of
the minimal depth, rather than through the implementation's sort. -/
def resolveSpec (fs : List RawPath) (source_path : RawPath) : ResolveResult :=
  if source_path ∈ fs then .found source_path
  else
    let spNorm := normSlash source_path
    let basename := lastSeg spNorm
    let suffixMatches :=
      fs.filter (fun f => lastSeg f == basename && spNorm.isSuffixOf f)
    match suffixMatches with
    | [m] => .found m
    | _ :: _ :: _ => .found (firstMinDepth suffixMatches)
    | [] =>
      let baseMatches := fs.filter (fun f => lastSeg f == basename)
      match baseMatches with
      | [] => .notFound source_path
      | [m] => .found m
      | _ :: _ :: _ =>
        if baseMatches.countP (fun f => depth f == minDepthVal baseMatches) = 1
        then .found (firstMinDepth baseMatches)
        else .ambiguous ((List.insertionSort depthLe baseMatches).take 25)

/-- Concrete catalog records used to instantiate theorems with
hypotheses. -/
def demoStepA : ChainStep :=
  { tool_name := "a", id := "1", domain := "D", subdomain := "S",
    tags := [], deps_pypi := ["x", "y"], description := "long description" }

def demoStepB : ChainStep :=
  { tool_name := "b", id := "2", domain := "D", subdomain := "S",
    tags := ["t"], deps_pypi := [], description := "short" }

/-- The bundle map of the specification's worked example:
`X:{a,b}`, `Y:{b,c}`, `Z:{a,c}`. -/
def demoBundles : List (String × Finset String) :=
  [("X", {"a", "b"}), ("Y", {"b", "c"}), ("Z", {"a", "c"})]

/-- The required package set `{a,b,c}` of the worked example. -/
def demoPkgs : Finset String := {"a", "b", "c"}

/-! ## Theorems for the classifier and phase planner -/

/-- C6: `phases_for_goal` follows the fixed top-down rule list, hence for
every capability-flag set the produced phase sequence contains
`"transform"` exactly once and its last element is `"report"`. -/
theorem C6_phases_transform_once_report_last :
    ∀ w : GoalIntent,
      (phases_for_goal w).count "transform" = 1 ∧
      (phases_for_goal w).getLast? = some "report" := by
  intro w
  unfold phases_for_goal
  split_ifs <;> decide

/-- C7: `classify_goal` is a pure function of the goal text setting each
of the ten flags to true iff its keyword set meets the token set, with
`misc` true iff all ten flags are false; `classify_goal ""` yields all
ten flags false and `misc` true, and the documented example goal yields
`web`, `nlp` true and `misc` false. -/
theorem C7_classify_goal_spec :
    (∀ s : String,
      ((classify_goal s).web = true ↔ ∃ k ∈ webKws, k.toList ∈ goalKeywords s) ∧
      ((classify_goal s).browser = true ↔ ∃ k ∈ browserKws, k.toList ∈ goalKeywords s) ∧
      ((classify_goal s).pdf = true ↔ ∃ k ∈ pdfKws, k.toList ∈ goalKeywords s) ∧
      ((classify_goal s).office = true ↔ ∃ k ∈ officeKws, k.toList ∈ goalKeywords s) ∧
      ((classify_goal s).nlp = true ↔ ∃ k ∈ nlpKws, k.toList ∈ goalKeywords s) ∧
      ((classify_goal s).embeddings = true ↔ ∃ k ∈ embeddingsKws, k.toList ∈ goalKeywords s) ∧
      ((classify_goal s).ml = true ↔ ∃ k ∈ mlKws, k.toList ∈ goalKeywords s) ∧
      ((classify_goal s).viz = true ↔ ∃ k ∈ vizKws, k.toList ∈ goalKeywords s) ∧
      ((classify_goal s).system = true ↔ ∃ k ∈ systemKws, k.toList ∈ goalKeywords s) ∧
      ((classify_goal s).schedule = true ↔ ∃ k ∈ scheduleKws, k.toList ∈ goalKeywords s) ∧
      ((classify_goal s).misc = true ↔
        ((classify_goal s).web = false ∧ (classify_goal s).browser = false ∧
         (classify_goal s).pdf = false ∧ (classify_goal s).office = false ∧
         (classify_goal s).nlp = false ∧ (classify_goal s).embeddings = false ∧
         (classify_goal s).ml = false ∧ (classify_goal s).viz = false ∧
         (classify_goal s).system = false ∧ (classify_goal s).schedule = false))) ∧
    classify_goal "" =
      { web := false, browser := false, pdf := false, office := false,
        nlp := false, embeddings := false, ml := false, viz := false,
        system := false, schedule := false, misc := true } ∧
    ((classify_goal "scrape the web and summarize sentiment").web = true ∧
     (classify_goal "scrape the web and summarize sentiment").nlp = true ∧
     (classify_goal "scrape the web and summarize sentiment").misc = false) := by
  refine ⟨fun s => ?_, by decide, by decide⟩
  have hflags := by
    exact fun kws => (by
      simp [classify_goal, hasKw, List.any_eq_true, List.elem_iff] :
      hasKw (goalKeywords s) kws = true ↔ ∃ k ∈ kws, k.toList ∈ goalKeywords s)
  refine ⟨?_, ?_, ?_, ?_, ?_, ?_, ?_, ?_, ?_, ?_, ?_⟩
  · exact hflags webKws
  · exact hflags browserKws
  · exact hflags pdfKws
  · exact hflags officeKws
  · exact hflags nlpKws
  · exact hflags embeddingsKws
  · exact hflags mlKws
  · exact hflags vizKws
  · exact hflags systemKws
  · exact hflags scheduleKws
  · simp only [classify_goal]
    constructor
    · intro h
      simp only [Bool.not_eq_true'] at h
      simp_all
    · intro h
      simp_all

/-! ## Theorems for the step ranker -/

theorem findPref_nil_pool (req : Finset String) :
    ∀ prefs, findPref [] req prefs = none := by
  intro prefs
  induction prefs with
  | nil => rfl
  | cons p ps ih => simp [findPref, ih]

theorem narrowPool_eq_nil_iff (steps : List ChainStep) (req : Finset String) :
    narrowPool steps req = [] ↔ steps = [] := by
  unfold narrowPool
  by_cases h1 : req = ∅
  · simp [h1]
  · simp only [h1, if_false]
    by_cases h2 : List.filter (tagFilter req) steps = []
    · simp [h2]
    · simp only [h2, if_neg]
      constructor
      · intro h; exact absurd h h2
      · intro h
        subst h
        simp at h2

theorem narrowPool_nil (req : Finset String) : narrowPool [] req = [] := by
  unfold narrowPool
  split_ifs <;> simp_all

theorem depsDescOrder_refl (s : ChainStep) : depsDescOrder s s :=
  Or.inr ⟨rfl, le_refl _⟩

/-- C3: `pick_best` returns a step for every non-empty pool and `none`
only for an empty pool; when the required-tag narrowing would leave no
records it is discarded and ranking proceeds on the unfiltered pool;
when no preference pair matches, the result is a minimum of the
(narrowed) pool under (dependency count, description length). -/
theorem C3_pick_best :
    ∀ (steps : List ChainStep) (prefs : List (String × String)) (req : Finset String),
      ((pick_best steps prefs req).1.isSome = true ↔ steps ≠ []) ∧
      (steps.filter (tagFilter req) = [] →
        (pick_best steps prefs req).1 = rankPool steps prefs req) ∧
      (findPref (narrowPool steps req) req prefs = none → steps ≠ [] →
        ∃ m, (pick_best steps prefs req).1 = some m ∧ m ∈ narrowPool steps req ∧
          ∀ x ∈ narrowPool steps req, depsDescOrder m x) := by
  intro steps prefs req
  refine ⟨?_, ?_, ?_⟩
  · constructor
    · intro h hnil
      subst hnil
      rw [pick_best] at h
      simp only [rankPool, narrowPool_nil, findPref_nil_pool] at h
      simp at h
    · intro hne
      have hpool : narrowPool steps req ≠ [] :=
        fun h => hne ((narrowPool_eq_nil_iff steps req).mp h)
      rw [pick_best]
      simp only [rankPool]
      cases hfp : findPref (narrowPool steps req) req prefs with
      | some c => simp
      | none =>
        simp only
        rw [List.head?_isSome]
        intro hs
        have hperm := List.perm_insertionSort depsDescOrder (narrowPool steps req)
        rw [hs] at hperm
        exact hpool hperm.nil_eq.symm
  · intro hfilter
    rw [pick_best]
    simp only [narrowPool, hfilter]
    split_ifs <;> rfl
  · intro hfp hne
    have hpool : narrowPool steps req ≠ [] :=
      fun h => hne ((narrowPool_eq_nil_iff steps req).mp h)
    have hperm := List.perm_insertionSort depsDescOrder (narrowPool steps req)
    have hsorted := List.sorted_insertionSort depsDescOrder (narrowPool steps req)
    rcases hs : List.insertionSort depsDescOrder (narrowPool steps req) with _ | ⟨m, rest⟩
    · exfalso
      rw [hs] at hperm
      exact hpool hperm.nil_eq.symm
    · rw [hs] at hperm hsorted
      refine ⟨m, ?_, ?_, ?_⟩
      · rw [pick_best]
        simp only [rankPool, hfp, hs]
        rfl
      · exact hperm.mem_iff.mp (List.mem_cons_self _ _)
      · intro x hx
        have hx2 : x ∈ m :: rest := hperm.mem_iff.mpr hx
        rcases List.mem_cons.mp hx2 with hxm | hxr
        · subst hxm; exact depsDescOrder_refl x
        · exact List.rel_of_sorted_cons hsorted x hxr

/-- Witness for C3 at a concrete two-record pool with empty tag set and
no preference pairs. -/
theorem C3_pick_best_witness :
    (((pick_best [demoStepA, demoStepB] [] ∅).1.isSome = true ↔
        ([demoStepA, demoStepB] : List ChainStep) ≠ []) ∧
      (pick_best [demoStepA, demoStepB] [] ∅).1 = rankPool [demoStepA, demoStepB] [] ∅ ∧
      ∃ m, (pick_best [demoStepA, demoStepB] [] ∅).1 = some m ∧
        m ∈ narrowPool [demoStepA, demoStepB] ∅ ∧
        ∀ x ∈ narrowPool [demoStepA, demoStepB] ∅, depsDescOrder m x) := by
  have h := C3_pick_best [demoStepA, demoStepB] [] ∅
  exact ⟨h.1, h.2.1 (by decide), h.2.2 (by decide) (by decide)⟩

/-- C5 counterexample: `pick_best`'s fallback branch sorts the caller's
pool list in place, so the pool passed in does not keep its element
order — here the two-element pool comes back reordered. -/
theorem C5_counterexample :
    (pick_best [demoStepA, demoStepB] [] ∅).2 ≠ [demoStepA, demoStepB] := by
  decide

/-- C5 amended: after a call to `pick_best` the caller's pool list holds
the same elements as before up to order (it is a permutation), and it is
exactly the original list whenever the fallback sort did not run on the
caller's list (narrowing rebound the working pool, or a preference pair
matched). -/
theorem C5_pick_best_pool_perm :
    ∀ (steps : List ChainStep) (prefs : List (String × String)) (req : Finset String),
      ((pick_best steps prefs req).2).Perm steps ∧
      (¬ ((req = ∅ ∨ steps.filter (tagFilter req) = []) ∧
            findPref (narrowPool steps req) req prefs = none) →
        (pick_best steps prefs req).2 = steps) := by
  intro steps prefs req
  constructor
  · rw [pick_best]
    simp only
    split_ifs
    · exact List.perm_insertionSort depsDescOrder steps
    · exact List.Perm.refl steps
  · intro hcond
    rw [pick_best]
    simp only
    rw [if_neg hcond]

/-- Witness for the amended C5 at a pool whose narrowing stage rebinds
the working list, so the caller's list is returned untouched. -/
theorem C5_pick_best_pool_perm_witness :
    ((pick_best [demoStepB] [] {"t"}).2).Perm [demoStepB] ∧
      (pick_best [demoStepB] [] {"t"}).2 = [demoStepB] := by
  have h := C5_pick_best_pool_perm [demoStepB] [] {"t"}
  exact ⟨h.1, h.2 (by decide)⟩

/-! ## Theorems for the recipe candidate builder -/

theorem renderChains_length (phases : List String) :
    ∀ idx l, (renderChains phases idx l).length = l.length := by
  intro idx l
  induction l generalizing idx with
  | nil => rfl
  | cons c rest ih => simp [renderChains, ih]

theorem renderChains_fields (phases : List String) :
    ∀ idx l c, c ∈ renderChains phases idx l →
      c.phases = phases ∧
      c.deps_union = sortedDedup (c.steps.flatMap (fun s => s.deps_pypi)) := by
  intro idx l
  induction l generalizing idx with
  | nil => intro c h; exact absurd h (by simp [renderChains])
  | cons ch rest ih =>
    intro c h
    rw [renderChains] at h
    rcases List.mem_cons.mp h with h | h
    · subst h; exact ⟨rfl, rfl⟩
    · exact ih _ c h

theorem sortedDedup_sorted (l : List String) : List.Sorted strLe (sortedDedup l) :=
  List.sorted_insertionSort strLe l.dedup

theorem sortedDedup_nodup (l : List String) : (sortedDedup l).Nodup :=
  ((List.perm_insertionSort strLe l.dedup).nodup_iff).mpr l.nodup_dedup

theorem sortedDedup_mem (l : List String) (x : String) :
    x ∈ sortedDedup l ↔ x ∈ l := by
  unfold sortedDedup
  rw [(List.perm_insertionSort strLe l.dedup).mem_iff, List.mem_dedup]

/-- C4: for `max_candidates ≥ 1`, `build_recipe_candidates` emits at
most `max_candidates` chains, every per-phase cross-product extension is
truncated to `max_candidates` chains, and every emitted candidate
carries the full phase list and the sorted deduplicated union of its
steps' declared dependencies. -/
theorem C4_build_recipe_candidates :
    ∀ (all_steps : List ChainStep) (goal : String) (m : Nat), 1 ≤ m →
      (build_recipe_candidates all_steps goal m).length ≤ m ∧
      (∀ acc opts, (extendChains m acc opts).length ≤ m) ∧
      (∀ c ∈ build_recipe_candidates all_steps goal m,
        c.phases = phases_for_goal (classify_goal goal) ∧
        List.Sorted strLe c.deps_union ∧
        c.deps_union.Nodup ∧
        (∀ x, x ∈ c.deps_union ↔ ∃ s ∈ c.steps, x ∈ s.deps_pypi)) := by
  intro all_steps goal m _
  refine ⟨?_, ?_, ?_⟩
  · rw [build_recipe_candidates]
    rw [renderChains_length]
    exact List.length_take_le _ _
  · intro acc opts
    rw [extendChains]
    exact List.length_take_le _ _
  · intro c hc
    rw [build_recipe_candidates] at hc
    have hf := renderChains_fields _ _ _ c hc
    refine ⟨hf.1, ?_, ?_, ?_⟩
    · rw [hf.2]; exact sortedDedup_sorted _
    · rw [hf.2]; exact sortedDedup_nodup _
    · intro x
      rw [hf.2, sortedDedup_mem, List.mem_flatMap]

/-- Witness for C4 at a concrete catalog and `max_candidates = 5`. -/
theorem C4_build_recipe_candidates_witness :
    (build_recipe_candidates [demoStepA, demoStepB] "scrape the web" 5).length ≤ 5 ∧
      (∀ acc opts, (extendChains 5 acc opts).length ≤ 5) ∧
      (∀ c ∈ build_recipe_candidates [demoStepA, demoStepB] "scrape the web" 5,
        c.phases = phases_for_goal (classify_goal "scrape the web") ∧
        List.Sorted strLe c.deps_union ∧
        c.deps_union.Nodup ∧
        (∀ x, x ∈ c.deps_union ↔ ∃ s ∈ c.steps, x ∈ s.deps_pypi)) :=
  C4_build_recipe_candidates [demoStepA, demoStepB] "scrape the web" 5 (by decide)

theorem pick_best_nil_steps (prefs : List (String × String)) (req : Finset String) :
    (pick_best [] prefs req).1 = none := by
  rw [pick_best]
  simp only [rankPool, narrowPool_nil, findPref_nil_pool]
  rfl

theorem extendChains_nil_opts (m : Nat) (acc : List (List ChainStep)) :
    extendChains m acc [] = [] := by
  simp [extendChains]

theorem extendChains_nil_acc (m : Nat) (opts : List ChainStep) :
    extendChains m [] opts = [] := by
  simp [extendChains]

theorem foldl_extendChains_dead (m : Nat) :
    ∀ l : List (List ChainStep), List.foldl (extendChains m) [] l = [] := by
  intro l
  induction l with
  | nil => rfl
  | cons opts rest ih => simp [extendChains_nil_acc, ih]

theorem foldl_extendChains_kill (m : Nat) :
    ∀ (l : List (List ChainStep)) (acc : List (List ChainStep)), [] ∈ l →
      List.foldl (extendChains m) acc l = [] := by
  intro l
  induction l with
  | nil => intro acc h; exact absurd h (by simp)
  | cons opts rest ih =>
    intro acc h
    rcases List.mem_cons.mp h with h | h
    · subst h
      simp only [List.foldl_cons, extendChains_nil_opts]
      exact foldl_extendChains_dead m rest
    · simp only [List.foldl_cons]
      exact ih _ h

/-- C10: if some planned phase has an empty eligible pool (no record's
tags meet the phase vocabulary and no record's domain appears among the
phase's preference pairs), `build_recipe_candidates` returns the empty
candidate list — the empty option list eliminates every partial
chain. -/
theorem C10_empty_phase_pool :
    ∀ (all_steps : List ChainStep) (goal : String) (m : Nat),
      (∃ ph ∈ phases_for_goal (classify_goal goal),
        ∀ s ∈ all_steps, (s.tags.toFinset ∩ phase_tags ph) = ∅ ∧
          s.domain ∉ (phase_prefs ph).map Prod.fst) →
      build_recipe_candidates all_steps goal m = [] := by
  intro all_steps goal m ⟨ph, hph, hall⟩
  have heligible : all_steps.filter (eligibleStep (phase_prefs ph) (phase_tags ph)) = [] := by
    rw [List.filter_eq_nil_iff]
    intro s hs
    have h := hall s hs
    simp [eligibleStep, h.1, h.2]
  have hopts : phaseOptions all_steps ph = [] := by
    rw [phaseOptions]
    simp only [heligible]
    have : rankGo [] (phase_prefs ph) (phase_tags ph) 12 [] = [] := by
      rw [rankGo]
      simp [pick_best_nil_steps]
    simp [this]
  have hmem : ([] : List ChainStep) ∈
      (phases_for_goal (classify_goal goal)).map (phaseOptions all_steps) :=
    List.mem_map.mpr ⟨ph, hph, hopts⟩
  rw [build_recipe_candidates]
  rw [foldl_extendChains_kill m _ _ hmem, List.take_nil]
  rfl

/-- Witness for C10: an empty catalog empties every phase pool, so no
candidate is produced. -/
theorem C10_empty_phase_pool_witness :
    build_recipe_candidates [] "x" 5 = [] :=
  C10_empty_phase_pool [] "x" 5 (by decide)

/-! ## Theorems for the dependency extras resolver -/

theorem foldl_max_shift : ∀ (l : List Nat) (a : Nat),
    l.foldl max a = max a (l.foldl max 0) := by
  intro l
  induction l with
  | nil => intro a; simp
  | cons b t ih =>
    intro a
    simp only [List.foldl_cons]
    rw [ih (max a b), ih (max 0 b)]
    omega

theorem find?_attain {α : Type} (g : α → Nat) :
    ∀ (l : List α), 0 < (l.map g).foldl max 0 →
      ∃ kv, l.find? (fun x => g x == (l.map g).foldl max 0) = some kv := by
  intro l hM
  have hex : ∃ x ∈ l, g x = (l.map g).foldl max 0 := by
    induction l with
    | nil => simp at hM
    | cons b t ih =>
      simp only [List.map_cons, List.foldl_cons] at hM ⊢
      rw [foldl_max_shift] at hM ⊢
      by_cases hle : (t.map g).foldl max 0 ≤ g b
      · exact ⟨b, List.mem_cons_self _ _, by omega⟩
      · have ht : 0 < (t.map g).foldl max 0 := by omega
        obtain ⟨x, hx, hgx⟩ := ih ht
        exact ⟨x, List.mem_cons_of_mem _ hx, by omega⟩
  obtain ⟨x, hx, hgx⟩ := hex
  have : (l.find? (fun x => g x == (l.map g).foldl max 0)).isSome := by
    rw [List.find?_isSome]
    exact ⟨x, hx, by simp [hgx]⟩
  exact Option.isSome_iff_exists.mp this

/-- The fold of `bestExtra` computes the first bundle strictly
exceeding every earlier cover, which is exactly the first bundle
attaining the maximal cover (when it beats the accumulator). -/
theorem bestExtra_foldl_char (remaining : Finset String) :
    ∀ (cands : List (String × Finset String)) (acc : Option String × Finset String),
      List.foldl
        (fun acc kv =>
          if acc.2.card < (remaining ∩ kv.2).card then (some kv.1, remaining ∩ kv.2)
          else acc)
        acc cands =
      (if (cands.map (fun kv => (remaining ∩ kv.2).card)).foldl max 0 ≤ acc.2.card
       then acc
       else
        match cands.find? (fun kv =>
            (remaining ∩ kv.2).card ==
              (cands.map (fun kv => (remaining ∩ kv.2).card)).foldl max 0) with
        | some kv => (some kv.1, remaining ∩ kv.2)
        | none => acc) := by
  intro cands
  induction cands with
  | nil =>
    intro acc
    simp
  | cons kv rest ih =>
    intro acc
    simp only [List.foldl_cons, List.map_cons]
    rw [foldl_max_shift (rest.map (fun kv => (remaining ∩ kv.2).card))
      (max 0 ((remaining ∩ kv.2).card))]
    by_cases hlt : acc.2.card < (remaining ∩ kv.2).card
    · rw [if_pos hlt, ih]
      by_cases hM : (rest.map (fun kv => (remaining ∩ kv.2).card)).foldl max 0 ≤
          (remaining ∩ kv.2).card
      · have hMc : max (max 0 ((remaining ∩ kv.2).card))
            ((rest.map (fun kv => (remaining ∩ kv.2).card)).foldl max 0) =
            (remaining ∩ kv.2).card := by omega
        rw [hMc]
        rw [if_pos (show (rest.map (fun kv => (remaining ∩ kv.2).card)).foldl max 0 ≤
          ((some kv.1, remaining ∩ kv.2) : Option String × Finset String).2.card from hM)]
        rw [if_neg (show ¬ (remaining ∩ kv.2).card ≤ acc.2.card by omega)]
        rw [List.find?_cons_of_pos _ (by simp)]
      · have hMM : max (max 0 ((remaining ∩ kv.2).card))
            ((rest.map (fun kv => (remaining ∩ kv.2).card)).foldl max 0) =
            (rest.map (fun kv => (remaining ∩ kv.2).card)).foldl max 0 := by omega
        rw [hMM]
        rw [if_neg (show ¬ (rest.map (fun kv => (remaining ∩ kv.2).card)).foldl max 0 ≤
          ((some kv.1, remaining ∩ kv.2) : Option String × Finset String).2.card from hM)]
        rw [if_neg (show ¬ (rest.map (fun kv => (remaining ∩ kv.2).card)).foldl max 0 ≤
          acc.2.card by omega)]
        rw [List.find?_cons_of_neg _ (by simp only [ne_eq, beq_iff_eq]; omega)]
        obtain ⟨kv2, hfind⟩ := find?_attain (fun kv => (remaining ∩ kv.2).card) rest (by omega)
        rw [hfind]
    · rw [if_neg hlt, ih]
      by_cases hM2 : (rest.map (fun kv => (remaining ∩ kv.2).card)).foldl max 0 ≤ acc.2.card
      · rw [if_pos hM2]
        rw [if_pos (show max (max 0 ((remaining ∩ kv.2).card))
          ((rest.map (fun kv => (remaining ∩ kv.2).card)).foldl max 0) ≤ acc.2.card by omega)]
      · have hMM : max (max 0 ((remaining ∩ kv.2).card))
            ((rest.map (fun kv => (remaining ∩ kv.2).card)).foldl max 0) =
            (rest.map (fun kv => (remaining ∩ kv.2).card)).foldl max 0 := by omega
        rw [hMM]
        rw [if_neg hM2, if_neg hM2]
        rw [List.find?_cons_of_neg _ (by simp only [ne_eq, beq_iff_eq]; omega)]

theorem bestExtra_eq_spec (cands : List (String × Finset String)) (remaining : Finset String) :
    bestExtra cands remaining =
      match specBestExtra cands remaining with
      | none => (none, ∅)
      | some bc => (some bc.1, bc.2) := by
  rw [bestExtra, bestExtra_foldl_char, specBestExtra]
  by_cases hM : (cands.map (fun kv => (remaining ∩ kv.2).card)).foldl max 0 = 0
  · rw [if_pos (show (cands.map (fun kv => (remaining ∩ kv.2).card)).foldl max 0 ≤
      ((none, ∅) : Option String × Finset String).2.card by simp [hM])]
    simp [hM]
  · rw [if_neg (show ¬ (cands.map (fun kv => (remaining ∩ kv.2).card)).foldl max 0 ≤
      ((none, ∅) : Option String × Finset String).2.card by simp [Finset.card_empty]; omega)]
    simp only [hM, if_neg]
    obtain ⟨kv2, hfind⟩ :=
      find?_attain (fun kv => (remaining ∩ kv.2).card) cands (by omega)
    rw [hfind]
    simp

theorem chooseGo_eq_spec (cands : List (String × Finset String)) :
    ∀ fuel remaining chosen,
      chooseGo cands fuel remaining chosen = specChooseGo cands fuel remaining chosen := by
  intro fuel
  induction fuel with
  | zero => intro r c; rfl
  | succ n ih =>
    intro remaining chosen
    rw [chooseGo, specChooseGo]
    by_cases hr : remaining = ∅
    · rw [if_pos hr, if_pos hr]
    · rw [if_neg hr, if_neg hr]
      have hbe := bestExtra_eq_spec cands remaining
      cases hspec : specBestExtra cands remaining with
      | none =>
        rw [hspec] at hbe
        rw [hbe]
      | some bc =>
        rw [hspec] at hbe
        rw [hbe]
        exact ih _ _

theorem choose_extras_eq_spec (em : List (String × Finset String)) (pkgs : Finset String) :
    choose_extras_for_packages em pkgs = specChooseExtras em pkgs := by
  rw [choose_extras_for_packages, specChooseExtras, chooseGo_eq_spec]

theorem bestExtra_some_mem {cands : List (String × Finset String)}
    {remaining : Finset String} {b : String} {cover : Finset String} :
    bestExtra cands remaining = (some b, cover) → ∃ kv ∈ cands, b = kv.1 := by
  intro h
  have hbe := bestExtra_eq_spec cands remaining
  cases hspec : specBestExtra cands remaining with
  | none =>
    rw [hspec] at hbe
    rw [hbe] at h
    simp at h
  | some bc =>
    rw [hspec] at hbe
    rw [hbe] at h
    have hb : b = bc.1 := by
      have := congrArg Prod.fst h
      simp at this
      exact this.symm
    rw [specBestExtra] at hspec
    by_cases hM : (cands.map (fun kv => (remaining ∩ kv.2).card)).foldl max 0 = 0
    · simp [hM] at hspec
    · simp only [hM, if_neg] at hspec
      cases hfind : cands.find? (fun kv =>
          (remaining ∩ kv.2).card ==
            (cands.map (fun kv => (remaining ∩ kv.2).card)).foldl max 0) with
      | none => rw [hfind] at hspec; simp at hspec
      | some kv =>
        rw [hfind] at hspec
        simp at hspec
        refine ⟨kv, List.mem_of_find?_eq_some hfind, ?_⟩
        exact hb.trans (congrArg Prod.fst hspec).symm

theorem chooseGo_mem (cands : List (String × Finset String)) :
    ∀ fuel remaining chosen x, x ∈ chooseGo cands fuel remaining chosen →
      x ∈ chosen ∨ ∃ kv ∈ cands, x = kv.1 := by
  intro fuel
  induction fuel with
  | zero => intro r ch x h; exact Or.inl h
  | succ n ih =>
    intro remaining chosen x h
    rw [chooseGo] at h
    by_cases hr : remaining = ∅
    · rw [if_pos hr] at h; exact Or.inl h
    · rw [if_neg hr] at h
      cases hbe : bestExtra cands remaining with
      | mk o cover =>
        rw [hbe] at h
        cases o with
        | none => exact Or.inl h
        | some b =>
          have := ih (remaining \ cover) (chosen ++ [b]) x h
          rcases this with hch | hc
          · rcases List.mem_append.mp hch with h1 | h1
            · exact Or.inl h1
            · simp at h1
              subst h1
              exact Or.inr (bestExtra_some_mem hbe)
          · exact Or.inr hc

theorem chooseExtras_all_not_mem (em : List (String × Finset String)) (pkgs : Finset String) :
    "all" ∉ choose_extras_for_packages em pkgs := by
  intro hmem
  rw [choose_extras_for_packages] at hmem
  rw [sortedDedup_mem] at hmem
  rcases chooseGo_mem _ _ _ _ _ hmem with h | ⟨kv, hkv, heq⟩
  · simp at h
  · have := List.of_mem_filter hkv
    simp at this
    exact this heq.symm

/-- C1: `choose_extras_for_packages` coincides with the specification's
greedy set-cover reference definition on every input; `"all"` is never
in the result; and on the worked example (`X:{a,b}`, `Y:{b,c}`,
`Z:{a,c}` with packages `{a,b,c}`) the result is exactly the two
bundles `X`, `Y`, which together cover all three packages. -/
theorem C1_choose_extras_greedy :
    (∀ (em : List (String × Finset String)) (pkgs : Finset String),
      choose_extras_for_packages em pkgs = specChooseExtras em pkgs) ∧
    (∀ (em : List (String × Finset String)) (pkgs : Finset String),
      "all" ∉ choose_extras_for_packages em pkgs) ∧
    choose_extras_for_packages demoBundles demoPkgs = ["X", "Y"] ∧
    (choose_extras_for_packages demoBundles demoPkgs).length = 2 ∧
    (∀ p ∈ demoPkgs, ∃ kv ∈ demoBundles,
      kv.1 ∈ choose_extras_for_packages demoBundles demoPkgs ∧ p ∈ kv.2) :=
  ⟨choose_extras_eq_spec, chooseExtras_all_not_mem, by decide, by decide, by decide⟩

/-- Witness for C1's covering statement at the package `"a"`. -/
theorem C1_choose_extras_greedy_witness :
    ∃ kv ∈ demoBundles,
      kv.1 ∈ choose_extras_for_packages demoBundles demoPkgs ∧ "a" ∈ kv.2 :=
  C1_choose_extras_greedy.2.2.2.2 "a" (by decide)

/-! ## Theorems for missing-module extraction -/

theorem searchNoModule_finds_phrase {r : List Char} :
    ∀ {l : List Char}, searchNoModule l = some r →
      "No module named".toList <:+: l := by
  intro l
  induction l with
  | nil => intro h; exact absurd h (by simp [searchNoModule])
  | cons c rest ih =>
    intro h
    rw [searchNoModule] at h
    by_cases hp : mmnPhrase.isPrefixOf (c :: rest) = true
    · have hpre : mmnPhrase <+: c :: rest := List.isPrefixOf_iff_prefix.mp hp
      have hsub : "No module named".toList <+: mmnPhrase := by decide
      exact (hsub.trans hpre).isInfix
    · simp only [hp, Bool.false_eq_true, if_false] at h
      exact List.infix_cons (ih h)

/-- C8: `missing_module_from_stderr` returns `none` whenever the
literal phrase does not occur in the input, and maps the documented
examples to their documented results (first dot-separated segment of
the first quoted identifier, single or double quotes). -/
theorem C8_missing_module_extraction :
    (∀ s : String, ¬ ("No module named".toList <:+: s.toList) →
      missing_module_from_stderr s = none) ∧
    missing_module_from_stderr "No module named \x27foo.bar\x27" = some "foo" ∧
    missing_module_from_stderr "No module named \x22foo\x22" = some "foo" ∧
    missing_module_from_stderr "unrelated text" = none := by
  refine ⟨?_, by decide, by decide, by decide⟩
  intro s hinf
  rw [missing_module_from_stderr]
  cases hsearch : searchNoModule s.toList with
  | none => rfl
  | some run => exact absurd (searchNoModule_finds_phrase hsearch) hinf

/-- Witness for C8's absence case at the input `"unrelated text"`. -/
theorem C8_missing_module_extraction_witness :
    missing_module_from_stderr "unrelated text" = none :=
  C8_missing_module_extraction.1 "unrelated text" (by decide)


/-! ## Theorems for remediation assembly -/

/-- C9: `install_hints_for_tool` follows the three-way priority — a
non-empty bundle selection yields exactly one extras install command
(plus the bundle-preferring note), otherwise a present (non-empty)
missing-module name yields one direct install command through the
module-to-package table, otherwise one generic base-install command —
and appends the OCR, audio and playwright advisories (playwright also
adding the extra `playwright install` command). -/
theorem C9_install_hints :
    ∀ (tool : String) (mm : Option String) (deps : List String)
      (em : List (String × Finset String)),
      ((install_hints_for_tool tool mm deps em).suggested_extras ≠ [] →
        (install_hints_for_tool tool mm deps em).pip_commands =
          ["pip install -e .[" ++
            String.intercalate ","
              (install_hints_for_tool tool mm deps em).suggested_extras ++ "]"] ++
          (if "playwright" ∈ deps.toFinset ∨ mm = some "playwright"
           then ["playwright install"] else []) ∧
        (install_hints_for_tool tool mm deps em).notes.head? = some noteExtras) ∧
      ((install_hints_for_tool tool mm deps em).suggested_extras = [] →
        ∀ m, mm = some m → m ≠ "" →
        (install_hints_for_tool tool mm deps em).pip_commands =
          ["pip install " ++ modToPkg m] ++
          (if "playwright" ∈ deps.toFinset ∨ mm = some "playwright"
           then ["playwright install"] else []) ∧
        (install_hints_for_tool tool mm deps em).notes.head? = some noteDirect) ∧
      ((install_hints_for_tool tool mm deps em).suggested_extras = [] →
        (mm = none ∨ mm = some "") →
        (install_hints_for_tool tool mm deps em).pip_commands =
          ["pip install -e ."] ++
          (if "playwright" ∈ deps.toFinset ∨ mm = some "playwright"
           then ["playwright install"] else []) ∧
        (install_hints_for_tool tool mm deps em).notes.head? = some noteBase) ∧
      (("pytesseract" ∈ deps ∨ mm = some "pytesseract") →
        noteOcr ∈ (install_hints_for_tool tool mm deps em).notes) ∧
      (("pydub" ∈ deps ∨ mm = some "pydub") →
        noteAudio ∈ (install_hints_for_tool tool mm deps em).notes) ∧
      (("playwright" ∈ deps ∨ mm = some "playwright") →
        "playwright install" ∈ (install_hints_for_tool tool mm deps em).pip_commands ∧
        notePlaywright ∈ (install_hints_for_tool tool mm deps em).notes) := by
  intro tool mm deps em
  refine ⟨?_, ?_, ?_, ?_, ?_, ?_⟩
  · intro hSE
    simp only [install_hints_for_tool] at hSE ⊢
    rw [if_pos hSE]
    constructor
    · rfl
    · simp
  · intro hSE m hm hne
    simp only [install_hints_for_tool] at hSE ⊢
    rw [if_neg (not_not_intro hSE)]
    subst hm
    rw [if_pos (show optTruthy (some m) = true by simp [optTruthy, hne])]
    constructor
    · rfl
    · simp
  · intro hSE hmm
    simp only [install_hints_for_tool] at hSE ⊢
    rw [if_neg (not_not_intro hSE)]
    have hfalse : optTruthy mm = false := by
      rcases hmm with h | h <;> subst h <;> simp [optTruthy]
    rw [if_neg (by simp [hfalse])]
    constructor
    · rfl
    · simp
  · intro h
    have hcond : "pytesseract" ∈ deps.toFinset ∨ mm = some "pytesseract" := by
      rcases h with h | h
      · exact Or.inl (List.mem_toFinset.mpr h)
      · exact Or.inr h
    simp only [install_hints_for_tool]
    rw [if_pos hcond]
    simp
  · intro h
    have hcond : "pydub" ∈ deps.toFinset ∨ mm = some "pydub" := by
      rcases h with h | h
      · exact Or.inl (List.mem_toFinset.mpr h)
      · exact Or.inr h
    simp only [install_hints_for_tool]
    rw [if_pos hcond]
    simp
  · intro h
    have hcond : "playwright" ∈ deps.toFinset ∨ mm = some "playwright" := by
      rcases h with h | h
      · exact Or.inl (List.mem_toFinset.mpr h)
      · exact Or.inr h
    simp only [install_hints_for_tool]
    rw [if_pos hcond, if_pos hcond]
    constructor
    · simp
    · simp


/-- Witness for C9, instantiating each branch of the priority at a
concrete input. -/
theorem C9_install_hints_witness :
    ((install_hints_for_tool "t" none ["x", "y"] [("E", {"x"})]).pip_commands =
        ["pip install -e .[" ++
          String.intercalate ","
            (install_hints_for_tool "t" none ["x", "y"] [("E", {"x"})]).suggested_extras ++ "]"] ++
        (if "playwright" ∈ (["x", "y"] : List String).toFinset ∨
            (none : Option String) = some "playwright"
         then ["playwright install"] else []) ∧
      (install_hints_for_tool "t" none ["x", "y"] [("E", {"x"})]).notes.head? =
        some noteExtras) ∧
    ((install_hints_for_tool "t" (some "yaml") [] []).pip_commands =
        ["pip install " ++ modToPkg "yaml"] ++
        (if "playwright" ∈ ([] : List String).toFinset ∨
            (some "yaml" : Option String) = some "playwright"
         then ["playwright install"] else []) ∧
      (install_hints_for_tool "t" (some "yaml") [] []).notes.head? = some noteDirect) ∧
    ((install_hints_for_tool "t" none ["pytesseract", "pydub", "playwright"] []).pip_commands =
        ["pip install -e ."] ++
        (if "playwright" ∈ (["pytesseract", "pydub", "playwright"] : List String).toFinset ∨
            (none : Option String) = some "playwright"
         then ["playwright install"] else []) ∧
      (install_hints_for_tool "t" none ["pytesseract", "pydub", "playwright"] []).notes.head? =
        some noteBase) ∧
    noteOcr ∈ (install_hints_for_tool "t" none ["pytesseract", "pydub", "playwright"] []).notes ∧
    noteAudio ∈ (install_hints_for_tool "t" none ["pytesseract", "pydub", "playwright"] []).notes ∧
    ("playwright install" ∈
        (install_hints_for_tool "t" none ["pytesseract", "pydub", "playwright"] []).pip_commands ∧
      notePlaywright ∈
        (install_hints_for_tool "t" none ["pytesseract", "pydub", "playwright"] []).notes) :=
  ⟨(C9_install_hints "t" none ["x", "y"] [("E", {"x"})]).1 (by decide),
   (C9_install_hints "t" (some "yaml") [] []).2.1 (by decide) "yaml" rfl (by decide),
   (C9_install_hints "t" none ["pytesseract", "pydub", "playwright"] []).2.2.1
     (by decide) (Or.inl rfl),
   (C9_install_hints "t" none ["pytesseract", "pydub", "playwright"] []).2.2.2.1
     (Or.inl (by decide)),
   (C9_install_hints "t" none ["pytesseract", "pydub", "playwright"] []).2.2.2.2.1
     (Or.inl (by decide)),
   (C9_install_hints "t" none ["pytesseract", "pydub", "playwright"] []).2.2.2.2.2
     (Or.inl (by decide))⟩


/-! ## Theorems for the script locator -/

theorem insertionSort_ne_nil {l : List RawPath} (h : l ≠ []) :
    List.insertionSort depthLe l ≠ [] := by
  intro h0
  have hp := List.perm_insertionSort depthLe l
  rw [h0] at hp
  exact h hp.nil_eq.symm

theorem headD_insertionSort_firstMin :
    ∀ l : List RawPath, l ≠ [] →
      (List.insertionSort depthLe l).headD [] = firstMinDepth l := by
  intro l
  induction l with
  | nil => intro h; exact absurd rfl h
  | cons x xs ih =>
    intro _
    cases xs with
    | nil => rfl
    | cons y rest =>
      rw [List.insertionSort]
      obtain ⟨h, t, hs⟩ : ∃ h t, List.insertionSort depthLe (y :: rest) = h :: t := by
        cases hs : List.insertionSort depthLe (y :: rest) with
        | nil => exact absurd hs (insertionSort_ne_nil (by simp))
        | cons h t => exact ⟨h, t, rfl⟩
      have hhead := ih (by simp)
      rw [hs] at hhead
      simp only [List.headD_cons] at hhead
      rw [hs, List.orderedInsert]
      by_cases hle : depthLe x h
      · rw [if_pos hle]
        have hle2 : depth x ≤ depth (firstMinDepth (y :: rest)) := by
          rw [← hhead]; exact hle
        rw [firstMinDepth, if_pos hle2]
        rfl
      · rw [if_neg hle]
        have hle2 : ¬ depth x ≤ depth (firstMinDepth (y :: rest)) := by
          rw [← hhead]; exact hle
        rw [firstMinDepth, if_neg hle2]
        simp [hhead]

theorem depth_firstMinDepth :
    ∀ l : List RawPath, l ≠ [] → depth (firstMinDepth l) = minDepthVal l := by
  intro l
  induction l with
  | nil => intro h; exact absurd rfl h
  | cons x xs ih =>
    intro _
    cases xs with
    | nil => rfl
    | cons y rest =>
      have ih2 := ih (by simp)
      rw [firstMinDepth, minDepthVal]
      by_cases hle : depth x ≤ depth (firstMinDepth (y :: rest))
      · rw [if_pos hle]; omega
      · rw [if_neg hle]; omega

theorem sorted_head_lt_iff_unique_min {l : List RawPath} {m0 m1 : RawPath}
    {rest2 : List RawPath}
    (hs : List.insertionSort depthLe l = m0 :: m1 :: rest2) (hne : l ≠ []) :
    (depth m0 < depth m1 ↔
      l.countP (fun f => depth f == minDepthVal l) = 1) := by
  have hperm := List.perm_insertionSort depthLe l
  have hsorted := List.sorted_insertionSort depthLe l
  rw [hs] at hperm hsorted
  have hm0 : depth m0 = minDepthVal l := by
    have := headD_insertionSort_firstMin l hne
    rw [hs] at this
    simp only [List.headD_cons] at this
    rw [this]
    exact depth_firstMinDepth l hne
  have hcount : l.countP (fun f => depth f == minDepthVal l) =
      (m0 :: m1 :: rest2).countP (fun f => depth f == minDepthVal l) :=
    (hperm.countP_eq _).symm
  have h01 : depthLe m0 m1 := List.rel_of_sorted_cons hsorted m1 (by simp)
  have hrest : ∀ x ∈ rest2, depthLe m1 x :=
    fun x hx => List.rel_of_sorted_cons hsorted.of_cons x hx
  constructor
  · intro hlt
    rw [hcount]
    simp only [List.countP_cons]
    have hm1 : ¬ (depth m1 == minDepthVal l) = true := by
      simp only [beq_iff_eq]
      omega
    have hr : rest2.countP (fun f => depth f == minDepthVal l) = 0 := by
      rw [List.countP_eq_zero]
      intro x hx
      have := hrest x hx
      unfold depthLe at this
      simp only [beq_iff_eq]
      omega
    rw [hr, if_neg hm1, if_pos (show (depth m0 == minDepthVal l) = true by simp [hm0])]
  · intro hcnt
    by_contra hnlt
    unfold depthLe at h01
    have hd01 : depth m1 = depth m0 := by omega
    rw [hcount] at hcnt
    simp only [List.countP_cons] at hcnt
    rw [if_pos (show (depth m1 == minDepthVal l) = true by simp [hd01, hm0]),
        if_pos (show (depth m0 == minDepthVal l) = true by simp [hm0])] at hcnt
    omega


theorem sort_two_shape {l : List RawPath} (hlen : 2 ≤ l.length) :
    ∃ m0 m1 rest2, List.insertionSort depthLe l = m0 :: m1 :: rest2 := by
  have hl : (List.insertionSort depthLe l).length = l.length :=
    (List.perm_insertionSort depthLe l).length_eq
  cases hs : List.insertionSort depthLe l with
  | nil => rw [hs] at hl; simp at hl; omega
  | cons m0 t0 =>
    cases t0 with
    | nil => rw [hs] at hl; simp at hl; omega
    | cons m1 rest2 => exact ⟨m0, m1, rest2, rfl⟩

/-- C2: `_resolve_script_path` yields exactly one of the staged
outcomes of the specification, first success winning: the exact path if
it exists; else the unique suffix match or the shallowest (first in
traversal order among minimal depths); else the unique basename match,
or the shallowest basename match exactly when the minimal depth is
attained once, otherwise the ambiguous failure listing the first 25
candidates (shallowest first); else the not-found failure reporting the
attempted path. -/
theorem C2_resolve_script_path :
    ∀ (fs : List RawPath) (source_path : RawPath),
      resolve_script_path fs source_path = resolveSpec fs source_path := by
  intro fs sp
  rw [resolve_script_path, resolveSpec]
  by_cases hex : sp ∈ fs
  · rw [if_pos hex, if_pos hex]
  · rw [if_neg hex, if_neg hex]
    simp only []
    generalize (fs.filter
      (fun f => lastSeg f == lastSeg (normSlash sp) && (normSlash sp).isSuffixOf f)) = sm
    cases sm with
    | cons a tail =>
      cases tail with
      | nil => rfl
      | cons b t =>
        have hne : a :: b :: t ≠ ([] : List RawPath) := by simp
        have h1 := headD_insertionSort_firstMin (a :: b :: t) hne
        obtain ⟨m0, m1, rest2, hs⟩ := sort_two_shape (l := a :: b :: t) (by simp)
        rw [hs] at h1
        simp only [List.headD_cons] at h1
        rw [hs]
        simp [h1]
    | nil =>
      generalize (fs.filter (fun f => lastSeg f == lastSeg (normSlash sp))) = bm
      cases bm with
      | nil => rfl
      | cons a tail =>
        cases tail with
        | nil => rfl
        | cons b t =>
          have hne : a :: b :: t ≠ ([] : List RawPath) := by simp
          obtain ⟨m0, m1, rest2, hs⟩ := sort_two_shape (l := a :: b :: t) (by simp)
          have hiff := sorted_head_lt_iff_unique_min hs hne
          have h1 := headD_insertionSort_firstMin (a :: b :: t) hne
          rw [hs] at h1
          simp only [List.headD_cons] at h1
          rw [hs]
          by_cases hd : depth m0 < depth m1
          · have hc := hiff.mp hd
            simp [hd, hc, ← h1]
          · have hc : ¬ (a :: b :: t).countP
                (fun f => depth f == minDepthVal (a :: b :: t)) = 1 :=
              fun hcc => hd (hiff.mpr hcc)
            simp [hd, hc, hs]


end Sm0l
